import Mathlib

/-!
Shallow embedding of the retrieval / incremental-indexing core of the
Friday AI meeting-assistant backend (python-backend/app), together with
proofs about the claims of its specification.

Text is modelled as `List Char`.  Python string primitives (strip, split,
slices) are embedded faithfully, including the negative-index slice
semantics that the chunker relies on.
-/

namespace Friday

/-- Whitespace characters stripped by the Python method strip()
(ASCII subset, which is all the code ever produces). -/
def pyIsSpace (c : Char) : Bool :=
  c = ' ' || c = '\t' || c = '\n' || c = '\r' || c = '\x0b' || c = '\x0c'

/-- Python text.strip(): remove leading and trailing whitespace. -/
def pyStrip (t : List Char) : List Char :=
  ((t.dropWhile pyIsSpace).reverse.dropWhile pyIsSpace).reverse

/-- `startsWithSeq pre l` is true when `pre` is a prefix of `l`. -/
def startsWithSeq : List Char → List Char → Bool
  | [], _ => true
  | _ :: _, [] => false
  | p :: ps, c :: cs => p == c && startsWithSeq ps cs

/-- `endsWithSeq suf l` is true when `suf` is a suffix of `l`
(Python str.endswith). -/
def endsWithSeq (suf l : List Char) : Bool :=
  startsWithSeq suf.reverse l.reverse

/-- `containsSeq pat l` is true when `pat` occurs contiguously in `l`
(the Python operator `in` on strings). -/
def containsSeq (pat : List Char) : List Char → Bool
  | [] => startsWithSeq pat []
  | c :: rest => startsWithSeq pat (c :: rest) || containsSeq pat rest

/-- Helper of `split_with_separator` for a non-empty separator
`s0 :: sr`: Python str.split(sep), scanning left to right and splitting
at each non-overlapping occurrence.  The structural fuel is the length
of the scanned text: every step consumes at least one character, so
fuel equal to the initial length is never exhausted (the 0-fuel branch
is unreachable from `split_with_separator`). -/
def splitAux (s0 : Char) (sr : List Char) : Nat → List Char → List Char → List (List Char)
  | _, [], acc => [acc.reverse]
  | 0, t, acc => [acc.reverse ++ t]
  | fuel + 1, c :: rest, acc =>
    if startsWithSeq (s0 :: sr) (c :: rest) then
      acc.reverse :: splitAux s0 sr fuel ((c :: rest).drop (s0 :: sr).length) []
    else
      splitAux s0 sr fuel rest (c :: acc)

/-- drive.py split_with_separator: text.split(sep) for a non-empty
separator, list(text) for the empty separator. -/
def split_with_separator (t : List Char) (sep : List Char) : List (List Char) :=
  match sep with
  | [] => t.map (fun c => [c])
  | s0 :: sr => splitAux s0 sr t.length t []

/-- Python slice l[-k:]: for k = 0 the whole list (since -0 = 0),
otherwise the last k elements. -/
def pyNegSlice (k : Nat) (l : List Char) : List Char :=
  if k = 0 then l else l.drop (l.length - k)

/-- Python slice l[i:] for a possibly negative integer i. -/
def pySliceFromInt (i : Int) (l : List Char) : List Char :=
  if 0 ≤ i then l.drop i.toNat else l.drop (l.length - (-i).toNat)

/-- The separator priority list of drive.py recursive_chunk. -/
def separators : List (List Char) :=
  [['\n', '\n'], ['\n'], ['.', ' '], [' '], []]

/-- The inner packing loop of recursive_chunk for one separator pass:
state is (remaining parts, current buffer, emitted chunks); returns the
emitted chunks and the final buffer.  A oversized part with an empty
buffer breaks out of the loop for a non-empty separator (returning the
chunks emitted so far and an empty buffer), and is hard-sliced for the
empty separator. -/
def packLoop (sep : List Char) (S O : Nat) :
    List (List Char) → List Char → List (List Char) → List (List Char) × List Char
  | [], cur, chunks => (chunks, cur)
  | part :: rest, cur, chunks =>
    let test := cur ++ (if cur.isEmpty then [] else sep) ++ part
    if test.length ≤ S then
      packLoop sep S O rest test chunks
    else if cur.isEmpty then
      if sep.isEmpty then
        packLoop sep S O rest (pySliceFromInt ((S : Int) - (O : Int)) part)
          (chunks ++ [part.take S])
      else
        (chunks, [])
    else
      packLoop sep S O rest
        (if O < cur.length then pyNegSlice O cur ++ sep ++ part else part)
        (chunks ++ [cur])

/-- One separator pass of recursive_chunk: split, pack, and append the
final buffer when it is non-empty. -/
def tryPass (sep : List Char) (S O : Nat) (t : List Char) : List (List Char) :=
  let r := packLoop sep S O (split_with_separator t sep) [] []
  if r.2.isEmpty then r.1 else r.1 ++ [r.2]

/-- Iterate the separator passes in priority order; commit the first
pass that yields a non-empty list of chunks all within the size bound,
else return the empty list (which sends recursive_chunk to its hard-cut
fallback). -/
def trySeps (S O : Nat) (t : List Char) : List (List Char) → List (List Char)
  | [] => []
  | sep :: rest =>
    let fc := tryPass sep S O t
    if fc ≠ [] ∧ ∀ c ∈ fc, c.length ≤ S then fc else trySeps S O t rest

/-- The hard-cut fallback loop of recursive_chunk, fuelled: while
i < len(text), emit text[i:min(i+S, len)] and advance i to end - O (or
exit when end = len).  The Python loop has no fuel; fuel-insensitivity
at fuel = len(text) is proved below under 0 < S and O < S. -/
def hardCutFuel (t : List Char) (S O : Nat) : Nat → Nat → List (List Char)
  | 0, _ => []
  | fuel + 1, i =>
    if i < t.length then
      ((t.drop i).take (min (i + S) t.length - i)) ::
        (if min (i + S) t.length < t.length then
          hardCutFuel t S O fuel (min (i + S) t.length - O)
        else [])
    else []

/-- drive.py recursive_chunk: recursive character text splitter. -/
def recursive_chunk (t : List Char) (S O : Nat) : List (List Char) :=
  let r := trySeps S O t separators
  if r.isEmpty then hardCutFuel t S O t.length 0 else r

/-- Structural metadata attached to a chunk by chunk_text_smart. -/
inductive ChunkMeta where
  | plain : ChunkMeta
  | pageNumber (n : Nat) : ChunkMeta
  | rowIndex (n : Nat) : ChunkMeta
deriving DecidableEq, Repr

/-- A chunk as produced by chunk_text_smart. -/
structure Chunk where
  text : List Char
  meta : ChunkMeta
deriving DecidableEq, Repr

/-- Length of the page-marker regex match at the head of `t`
(the pattern bracket PAGE space, one or more digits, closing bracket),
0 when there is no match. -/
def matchPageMarkerLen (t : List Char) : Nat :=
  match t with
  | '[' :: 'P' :: 'A' :: 'G' :: 'E' :: ' ' :: rest =>
    let ds := rest.takeWhile (fun c => c.isDigit)
    if ds ≠ [] ∧ (rest.drop ds.length).head? = some ']' then 6 + ds.length + 1 else 0
  | _ => 0

/-- Helper of `pageSplit`: re.split of the page-marker pattern, scanning
left to right.  Fuelled structurally like `splitAux`; every step
consumes at least one character, so fuel equal to the initial length is
never exhausted. -/
def pageSplitAux : Nat → List Char → List Char → List (List Char)
  | _, [], acc => [acc.reverse]
  | 0, t, acc => [acc.reverse ++ t]
  | fuel + 1, c :: rest, acc =>
    let n := matchPageMarkerLen (c :: rest)
    if 0 < n then
      acc.reverse :: pageSplitAux fuel ((c :: rest).drop n) []
    else
      pageSplitAux fuel rest (c :: acc)

/-- re.split of the page-marker regex over the whole text
(drive.py line 335). -/
def pageSplit (t : List Char) : List (List Char) :=
  pageSplitAux t.length t []

/-- drive.py chunk_text_smart: smart chunking based on file type. -/
def chunk_text_smart (t : List Char) (mime : List Char) (S O : Nat) : List Chunk :=
  if containsSeq "spreadsheet".toList mime || containsSeq "csv".toList mime then
    (split_with_separator (pyStrip t) ['\n']).enum.filterMap fun p =>
      if (pyStrip p.2).isEmpty then none else some ⟨pyStrip p.2, .rowIndex p.1⟩
  else if containsSeq "pdf".toList mime && containsSeq "[PAGE ".toList t then
    (pageSplit t).enum.flatMap fun p =>
      if (pyStrip p.2).isEmpty then [] else
        (recursive_chunk (pyStrip p.2) S O).map fun c => ⟨c, .pageNumber (p.1 + 1)⟩
  else
    (recursive_chunk t S O).map fun c => ⟨c, .plain⟩

/-! ### Embedding cache (app/routes/embed.py) -/

/-- embed.py MAX_CACHE_SIZE. -/
def MAX_CACHE_SIZE : Nat := 1000

/-- The module-level embedding cache of embed.py: an association of
cache keys to embedding vectors.  Embedding vectors are modelled as
lists of integers (their numeric values play no role in the claims). -/
structure EmbCache where
  entries : List (List Char × List Int)
deriving DecidableEq

/-- Dictionary lookup in the embedding cache. -/
def cacheLookup (c : EmbCache) (key : List Char) : Option (List Int) :=
  (c.entries.find? (fun e => e.1 = key)).map (fun e => e.2)

/-- embed.py get_embedding_internal, one call.  The md5 fingerprint of
get_cache_key is abstracted as the function argument `hash` (md5 is a
deterministic pure function; every theorem below holds for an arbitrary
such function).  `providerResp` is what the external embedding provider
would return if it is invoked during this call (`none` models a raised
provider exception, which the code catches and converts to `None`).
Returns the result, the new cache state, and the number of provider
invocations made by this call (0 or 1). -/
def get_embedding_internal (hash : List Char → List Char)
    (providerResp : Option (List Int)) (text : List Char) (c : EmbCache) :
    Option (List Int) × EmbCache × Nat :=
  if (pyStrip text).length < 10 then (none, c, 0)
  else
    let key := hash (text.take 8000)
    match cacheLookup c key with
    | some v => (some v, c, 0)
    | none =>
      match providerResp with
      | none => (none, c, 1)
      | some v =>
        (some v,
         if c.entries.length < MAX_CACHE_SIZE then ⟨c.entries ++ [(key, v)]⟩ else c,
         1)

/-! ### Session memory (app/chains/chain_utils.py) -/

/-- Message role in the chat memory. -/
inductive Role where
  | human : Role
  | ai : Role
deriving DecidableEq, Repr

/-- A stored chat message. -/
structure ChatMessage where
  role : Role
  content : List Char
deriving DecidableEq, Repr

/-- Model of the external langchain ConversationBufferWindowMemory:
the underlying chat_memory stores the full message list; the window
size k restricts only the buffer loaded for the chain (last k*2
messages), not the stored history. -/
structure ConversationBufferWindowMemory where
  k : Nat
  messages : List ChatMessage
deriving DecidableEq, Repr

/-- chain_utils.py get_memory for a session seen for the first time:
a fresh ConversationBufferWindowMemory with k = 10. -/
def get_memory_fresh : ConversationBufferWindowMemory := ⟨10, []⟩

/-- Model of the external langchain save_context on
ConversationBufferWindowMemory: append the user message and the answer
to the stored messages; nothing is evicted on save. -/
def save_context (m : ConversationBufferWindowMemory)
    (question answer : List Char) : ConversationBufferWindowMemory :=
  ⟨m.k, m.messages ++ [⟨.human, question⟩, ⟨.ai, answer⟩]⟩

/-- Model of the external langchain buffer property used by
load_memory_variables: the last k*2 stored messages (all of them when
fewer), empty when k = 0. -/
def loadBufferWindow (m : ConversationBufferWindowMemory) : List ChatMessage :=
  if 0 < m.k then m.messages.drop (m.messages.length - 2 * m.k) else []

/-- Append a list of (question, answer) turns to a memory. -/
def appendTurns (m : ConversationBufferWindowMemory)
    (turns : List (List Char × List Char)) : ConversationBufferWindowMemory :=
  turns.foldl (fun acc p => save_context acc p.1 p.2) m

/-- chain_utils.py get_session_history for an existing session: map each
stored message to a (role, content) pair, role rendered as the string
user or assistant. -/
def get_session_history (m : ConversationBufferWindowMemory) :
    List (List Char × List Char) :=
  m.messages.map fun msg =>
    (if msg.role = .human then "user".toList else "assistant".toList, msg.content)

/-! ### Incremental sync engine (app/routes/drive.py) -/

/-- SUPPORTED_MIMES of drive.py. -/
def SUPPORTED_MIMES : List (List Char) :=
  ["application/pdf".toList,
   "application/x-pdf".toList,
   "application/vnd.openxmlformats-officedocument.wordprocessingml.document".toList,
   "application/vnd.openxmlformats-officedocument.spreadsheetml.sheet".toList,
   "application/vnd.openxmlformats-officedocument.presentationml.presentation".toList,
   "application/vnd.google-apps.document".toList,
   "application/vnd.google-apps.spreadsheet".toList,
   "text/plain".toList,
   "text/markdown".toList,
   "text/csv".toList,
   "image/jpeg".toList,
   "image/png".toList,
   "image/webp".toList]

/-- drive.py is_supported: mime in the supported set, or the lowercased
filename ends in .pdf. -/
def is_supported (mime : List Char) (filename : List Char) : Bool :=
  mime ∈ SUPPORTED_MIMES || endsWithSeq ".pdf".toList (filename.map Char.toLower)

/-- A file as enumerated from the Drive folder listing. -/
structure FileEntry where
  fid : List Char
  name : List Char
  mime : List Char
  modTime : List Char
deriving DecidableEq, Repr

/-- A vector-store operation issued during a sync run, tagged with the
file id it concerns. -/
inductive VOp where
  | fetchOp (fid : List Char) : VOp
  | deleteOp (fid : List Char) : VOp
  | upsertOp (fid : List Char) (batchIdx : Nat) : VOp
deriving DecidableEq, Repr

/-- Terminal state of one file during a sync run. -/
inductive FileOutcome where
  | synced : FileOutcome
  | skippedUnsupported : FileOutcome
  | skippedUnchanged : FileOutcome
  | skippedSmallContent : FileOutcome
  | skippedNoText : FileOutcome
  | skippedNoVectors : FileOutcome
  | failed (err : List Char) : FileOutcome
deriving DecidableEq, Repr

/-- Abstract environment of one sync run: the external collaborators of
sync_drive_folder.  `indexedTime` is the result of the fetch probe of
get_indexed_modified_time (which catches its own errors, hence a plain
Option).  `download` may fail (a raised exception with a message).
`parse` models parse_content, which never raises (it converts parse
errors into placeholder text).  `embed` models get_embedding_internal
for the prefixed chunk text (None for a too-short text or a provider
failure).  `upsertBatch` gives the outcome of one batch upsert POST
(some message = non-200 response, which raises). -/
structure SyncEnv where
  indexedTime : List Char → Option (List Char)
  download : List Char → Except (List Char) (List Char)
  parse : List Char → List Char
  embed : List Char → Option (List Int)
  upsertBatch : List (List Char × List Int) → Option (List Char)

/-- Python truthiness of the optional indexed time (None and the empty
string are both falsy at the lines using it). -/
def truthyTime : Option (List Char) → Bool
  | none => false
  | some t => !t.isEmpty

/-- drive.py file extension computation for the embedding prefix:
name.split(dot)[-1].lower() when the name contains a dot, else empty. -/
def fileExtension (name : List Char) : List Char :=
  if name.contains '.' then
    ((split_with_separator name ['.']).getLastD []).map Char.toLower
  else []

/-- drive.py text_for_embedding: prefix the filename and file type to
the chunk text. -/
def embedInput (name : List Char) (chunkText : List Char) : List Char :=
  "[File: ".toList ++ name ++ "] [Type: ".toList ++ fileExtension name
    ++ "] ".toList ++ chunkText

/-- Deterministic vector record id meetingId_fileId_chunkIndex. -/
def mkVecId (mid fid : List Char) (i : Nat) : List Char :=
  mid ++ ['_'] ++ fid ++ ['_'] ++ Nat.toDigits 10 i

/-- Build the vector records for the chunks of one file: embed the
prefixed chunk text, skipping chunks whose embedding is falsy (None or
the empty list). -/
def buildVectors (env : SyncEnv) (mid : List Char) (f : FileEntry)
    (chunks : List Chunk) : List (List Char × List Int) :=
  chunks.enum.filterMap fun p =>
    match env.embed (embedInput f.name p.2.text) with
    | none => none
    | some v => if v.isEmpty then none else some (mkVecId mid f.fid p.1, v)

/-- drive.py batch_upsert: submit the vectors in batches of 100,
sequentially; a failed batch raises, aborting the remaining batches.
Returns the upsert operations attempted (tagged with the file id) and
the error of the first failed batch, if any.  Fuelled structurally by
the number of vectors, which bounds the number of batches; the 0-fuel
branch is unreachable from `processFile`. -/
def batchUpsertAux (env : SyncEnv) (fid : List Char) :
    Nat → List (List Char × List Int) → Nat → List VOp × Option (List Char)
  | _, [], _ => ([], none)
  | 0, _, _ => ([], none)
  | fuel + 1, v :: vs, bidx =>
    let batch := (v :: vs).take 100
    match env.upsertBatch batch with
    | some e => ([VOp.upsertOp fid bidx], some e)
    | none =>
      let r := batchUpsertAux env fid fuel ((v :: vs).drop 100) (bidx + 1)
      (VOp.upsertOp fid bidx :: r.1, r.2)

/-- Processing of one enumerated file inside the sync loop of
sync_drive_folder (drive.py lines 203-298), with the per-file exception
handler applied: returns the terminal outcome of the file and the
vector-store operations issued on its behalf, in order. -/
def processFile (env : SyncEnv) (mid : List Char) (f : FileEntry) :
    FileOutcome × List VOp :=
  if ¬ is_supported f.mime f.name then (.skippedUnsupported, [])
  else
    let it := env.indexedTime f.fid
    let ops0 := [VOp.fetchOp f.fid]
    if truthyTime it ∧ it = some f.modTime then (.skippedUnchanged, ops0)
    else
      let ops1 := ops0 ++ (if truthyTime it then [VOp.deleteOp f.fid] else [])
      match env.download f.fid with
      | .error e => (.failed e, ops1)
      | .ok content =>
        if content.length < 50 then (.skippedSmallContent, ops1)
        else
          let text := env.parse content
          if (pyStrip text).length < 50 then (.skippedNoText, ops1)
          else
            let chunks := chunk_text_smart text f.mime 1000 200
            let vectors := buildVectors env mid f chunks
            if vectors.isEmpty then (.skippedNoVectors, ops1)
            else
              let u := batchUpsertAux env f.fid vectors.length vectors 0
              match u.2 with
              | some e => (.failed e, ops1 ++ u.1)
              | none => (.synced, ops1 ++ u.1)

/-- The summary returned by sync_drive_folder. -/
structure SyncResult where
  success : Bool
  syncedCount : Nat
  skippedCount : Nat
  totalFiles : Nat
  errors : Option (List (List Char × List Char))
deriving DecidableEq, Repr

/-- The sync loop over the enumerated files, accumulating counters,
the error list, and the trace of vector-store operations. -/
def runSyncAux (env : SyncEnv) (mid : List Char) :
    List FileEntry → Nat × Nat × List (List Char × List Char) × List VOp →
    Nat × Nat × List (List Char × List Char) × List VOp
  | [], st => st
  | f :: rest, (syn, skp, errs, tr) =>
    let r := processFile env mid f
    match r.1 with
    | .synced => runSyncAux env mid rest (syn + 1, skp, errs, tr ++ r.2)
    | .failed e => runSyncAux env mid rest (syn, skp + 1, errs ++ [(f.name, e)], tr ++ r.2)
    | _ => runSyncAux env mid rest (syn, skp + 1, errs, tr ++ r.2)

/-- The body of sync_drive_folder once enumeration succeeded: process
every file and assemble the SyncResult summary (errors reported as None
when the error list is empty) together with the operation trace. -/
def runSync (env : SyncEnv) (mid : List Char) (files : List FileEntry) :
    SyncResult × List VOp :=
  let st := runSyncAux env mid files (0, 0, [], [])
  (⟨true, st.1, st.2.1, files.length,
    if st.2.2.1.isEmpty then none else some st.2.2.1⟩, st.2.2.2)

/-- drive.py sync_drive_folder: a failed enumeration raises (HTTP 500);
otherwise the run returns the summary. -/
def sync_drive_folder (enum : Except (List Char) (List FileEntry))
    (env : SyncEnv) (mid : List Char) :
    Except (List Char) (SyncResult × List VOp) :=
  match enum with
  | .error e => .error e
  | .ok files => .ok (runSync env mid files)

/-! ### Advanced retrieval pipeline (app/chains/advanced_rag.py) -/

/-- A retrieved document (its page content; the claims about the
pipeline do not inspect further metadata). -/
structure RDoc where
  content : List Char
deriving DecidableEq, Repr

/-- advanced_rag.py LineListOutputParser.parse: strip the response,
split on line breaks, strip each line and drop blank ones. -/
def parseLines (text : List Char) : List (List Char) :=
  ((split_with_separator text ['\n']).map (fun l => pyStrip l)).filter
    (fun l => ¬ l.isEmpty)

/-- Keep the first occurrence of each document content, skipping those
already seen. -/
def dedupGo (seen : List (List Char)) : List RDoc → List RDoc
  | [] => []
  | d :: rest =>
    if d.content ∈ seen then dedupGo seen rest
    else d :: dedupGo (d.content :: seen) rest

/-- Order-preserving deduplication by page content (the unique union
performed by the external MultiQueryRetriever). -/
def dedupDocs (l : List RDoc) : List RDoc :=
  dedupGo [] l

/-- Model of the external MultiQueryRetriever configured by
get_advanced_retriever (include_original = true): parse the expansion
response of the language model into query variants, append the original
query, search every variant and take the deduplicated union. -/
def multiQueryRetrieve (llmResp : List Char) (search : List Char → List RDoc)
    (q : List Char) : List RDoc :=
  dedupDocs ((parseLines llmResp ++ [q]).flatMap search)

/-- Stable insertion into a list sorted descending by score. -/
def insertByScoreDesc (score : RDoc → Int) (d : RDoc) :
    List RDoc → List RDoc
  | [] => [d]
  | x :: xs =>
    if score x < score d then d :: x :: xs
    else x :: insertByScoreDesc score d xs

/-- Sort descending by score (stable). -/
def sortByScoreDesc (score : RDoc → Int) : List RDoc → List RDoc
  | [] => []
  | x :: xs => insertByScoreDesc score x (sortByScoreDesc score xs)

/-- Model of the external FlashrankRerank compressor constructed by
get_advanced_retriever with top_n = 5: when the cross-encoder scorer is
available, score the candidates against the query, sort descending and
keep the top_n; when it is unavailable the call raises (Except.error).
There is no fallback in the source. -/
def flashrankRerank (scorer : Option (List Char → RDoc → Int)) (topN : Nat)
    (q : List Char) (docs : List RDoc) : Except (List Char) (List RDoc) :=
  match scorer with
  | none => .error "reranker unavailable".toList
  | some f => .ok ((sortByScoreDesc (f q) docs).take topN)

/-- Model of the external ContextualCompressionRetriever: retrieve with
the base retriever; when it returned no documents, answer the empty
list without invoking the compressor; otherwise apply the compressor,
whose exception propagates. -/
def compressionRetrieve
    (compress : List Char → List RDoc → Except (List Char) (List RDoc))
    (base : List Char → List RDoc) (q : List Char) :
    Except (List Char) (List RDoc) :=
  let docs := base q
  if docs.isEmpty then .ok [] else compress q docs

/-- advanced_rag.py get_advanced_retriever: the composed retrieval
pipeline (multi-query expansion, fan-out search, FlashRank re-ranking
with top_n = 5).  `llmResp` is the expansion response of the language
model, `search` the per-variant similarity search, `scorer` the
cross-encoder (none = re-ranking stage unavailable).  No stage is
wrapped in an exception handler in the source, so a re-ranking failure
propagates to the caller of query_with_advanced_memory. -/
def get_advanced_retriever (llmResp : List Char)
    (search : List Char → List RDoc)
    (scorer : Option (List Char → RDoc → Int)) (q : List Char) :
    Except (List Char) (List RDoc) :=
  compressionRetrieve (flashrankRerank scorer 5)
    (multiQueryRetrieve llmResp search) q

/-! ### Definitions supporting concrete claim instances -/

/-- Reconstruction used by the round-trip claim: concatenate the chunks
in order after removing the known overlap region, that is the first O
characters, of every chunk after the first. -/
def reconOverlap (O : Nat) : List (List Char) → List Char
  | [] => []
  | c :: rest => c ++ (rest.map (fun x => x.drop O)).flatten

/-- A ten-character text, long enough to pass the minimum-length guard
of get_embedding_internal. -/
def text10 : List Char := "aaaaaaaaaa".toList

/-- A reachable embedding-cache state holding MAX_CACHE_SIZE entries
(1000 distinct single-character keys, none of them equal to the key of
`text10`). -/
def fullCache : EmbCache :=
  ⟨(List.range 1000).map (fun i => ([Char.ofNat (4000 + i)], ([] : List Int)))⟩

/-- Fifteen question/answer turns (window size K = 10 plus five). -/
def turns15 : List (List Char × List Char) :=
  (List.range 15).map (fun _ => ("q".toList, "a".toList))

/-- Sixty-one bytes of content, above the minimum content and text
length thresholds of the sync loop. -/
def content61 : List Char := List.replicate 61 'a'

/-- A sync environment whose staleness probe answers `it` for every
file, whose download, parse, embedding and upsert all succeed, used to
exercise the staleness handling of the sync loop on concrete runs. -/
def env4 (it : Option (List Char)) : SyncEnv where
  indexedTime := fun _ => it
  download := fun _ => .ok content61
  parse := fun c => c
  embed := fun _ => some [1]
  upsertBatch := fun _ => none

/-- A supported plain-text file entry with modification time 2024. -/
def file4 : FileEntry :=
  ⟨"f1".toList, "doc.txt".toList, "text/plain".toList, "2024".toList⟩

/-- A sync environment for a new (never indexed) file whose embedding
provider raises on every chunk: get_embedding_internal catches the
exception and returns None, which the model renders as embed answering
none, so every chunk is silently dropped. -/
def envEmbedFail : SyncEnv where
  indexedTime := fun _ => none
  download := fun _ => .ok content61
  parse := fun _ => content61
  embed := fun _ => none
  upsertBatch := fun _ => none

/-- The placeholder text parse_content substitutes for a raised parser
exception (58 characters, above the minimum text threshold). -/
def parseErrorText : List Char :=
  "[Parse error: division by zero in document text extractor]".toList

/-- A sync environment for a new file whose underlying parser raises:
parse_content catches the exception and returns the placeholder text
instead, so the model renders the parse failure as parse answering
that placeholder; embedding and upsert succeed. -/
def envParseFail : SyncEnv where
  indexedTime := fun _ => none
  download := fun _ => .ok content61
  parse := fun _ => parseErrorText
  embed := fun _ => some [1]
  upsertBatch := fun _ => none

/-! ### Claim theorems and supporting lemmas -/

/-- C1 counterexample: chunking the text consisting of a paragraph
break followed by x (chunk_size 1000, overlap 200) yields the single
chunk x, so the concatenation of the chunks minus overlaps is x and
does not reproduce the input: the separator-based packing drops the
leading separator. -/
theorem c1_roundtrip_counterexample :
    recursive_chunk ("\n\nx".toList) 1000 200 = [['x']] ∧
    reconOverlap 200 (recursive_chunk ("\n\nx".toList) 1000 200) ≠ "\n\nx".toList := by
  decide

/-- C3: evaluating the chunker on a three-page PDF text with markers
PAGE 1, PAGE 2 and PAGE 3 (chunk_size 1000, overlap 200).  re.split
leaves an empty segment before the first marker and enumerate starts
counting at 1, so the produced chunks are tagged page_number 2, 3, 4
instead of 1, 2, 3: each chunk is tagged with one more than the page
its text came from. -/
theorem c3_page_number_off_by_one :
    chunk_text_smart ("[PAGE 1]\nA\n\n[PAGE 2]\nB\n\n[PAGE 3]\nC".toList)
      ("application/pdf".toList) 1000 200 =
      [⟨['A'], .pageNumber 2⟩, ⟨['B'], .pageNumber 3⟩, ⟨['C'], .pageNumber 4⟩] := by
  decide

/-- C9 counterexample: a whitespace-only input (one space) on the
generic text path produces one chunk containing that space, not zero
chunks. -/
theorem c9_whitespace_counterexample :
    chunk_text_smart ([' ']) ("text/plain".toList) 1000 200 = [⟨[' '], .plain⟩] ∧
    chunk_text_smart ([' ']) ("text/plain".toList) 1000 200 ≠ [] := by
  decide

/-- C7 counterexample: after appending K + 5 = 15 turns to a fresh
session memory (window K = 10), the readable history returned by
get_session_history holds all 30 messages (15 turns), not the 20
messages of the 10 most-recent turns: the stored history is never
evicted, the window applies only to the loaded buffer. -/
theorem c7_window_counterexample :
    (get_session_history (appendTurns get_memory_fresh turns15)).length = 30 ∧
    (get_session_history (appendTurns get_memory_fresh turns15)).length ≠
      2 * get_memory_fresh.k := by
  decide

set_option maxRecDepth 100000 in
/-- C6 counterexample: from a reachable cache state at the capacity
bound, two calls with the same ten-character text both miss, each
invokes the provider (two invocations in total), and with differing
provider responses the two calls return different vectors. -/
theorem c6_cache_counterexample :
    fullCache.entries.length = MAX_CACHE_SIZE ∧
    (get_embedding_internal id (some [1]) text10 fullCache).1 = some [1] ∧
    (get_embedding_internal id (some [2]) text10
        (get_embedding_internal id (some [1]) text10 fullCache).2.1).1 = some [2] ∧
    (get_embedding_internal id (some [1]) text10 fullCache).1 ≠
      (get_embedding_internal id (some [2]) text10
        (get_embedding_internal id (some [1]) text10 fullCache).2.1).1 ∧
    (get_embedding_internal id (some [1]) text10 fullCache).2.2 +
      (get_embedding_internal id (some [2]) text10
        (get_embedding_internal id (some [1]) text10 fullCache).2.1).2.2 = 2 := by
  decide

/-- C8 counterexample: with a successful variant search returning a
document but the re-ranking stage unavailable, the composed retrieval
pipeline returns the raised error rather than the top results by
similarity score: there is no fallback path in the source. -/
theorem c8_no_fallback_counterexample :
    multiQueryRetrieve ("v1".toList) (fun _ => [⟨"d".toList⟩]) ("orig".toList) ≠ [] ∧
    get_advanced_retriever ("v1".toList) (fun _ => [⟨"d".toList⟩]) none ("orig".toList)
      = .error ("reranker unavailable".toList) :=
  ⟨by decide, rfl⟩

/-- In a cache with room, a stored entry is found by the subsequent
lookup. -/
theorem cacheLookup_after_store (c : EmbCache) (key : List Char) (v : List Int)
    (h : cacheLookup c key = none) :
    cacheLookup ⟨c.entries ++ [(key, v)]⟩ key = some v := by
  unfold cacheLookup at h ⊢
  rw [List.find?_append]
  have hf : c.entries.find? (fun e => e.1 = key) = none := by
    rcases hfind : c.entries.find? (fun e => e.1 = key) with _ | e
    · exact hfind
    · rw [hfind] at h
      simp at h
  rw [hf, Option.none_or]
  simp [List.find?]

/-- C6 (amended): calling the embedding lookup twice with the same text
returns the identical result with at most one provider invocation,
whenever the text is already cached, or the cache is below its capacity
bound and the provider succeeds on the first call, or the text is below
the minimum length (in which case neither call invokes the provider).
At the capacity bound a miss is not stored, so the unrestricted claim
fails (see the counterexample). -/
theorem c6_cache_idempotent (hash : List Char → List Char) (text : List Char)
    (c : EmbCache) (p1 p2 : Option (List Int))
    (h : (cacheLookup c (hash (text.take 8000))).isSome
      ∨ (c.entries.length < MAX_CACHE_SIZE ∧ p1.isSome)
      ∨ (pyStrip text).length < 10) :
    (get_embedding_internal hash p1 text c).1
      = (get_embedding_internal hash p2 text
          ((get_embedding_internal hash p1 text c).2.1)).1
    ∧ (get_embedding_internal hash p1 text c).2.2
      + (get_embedding_internal hash p2 text
          ((get_embedding_internal hash p1 text c).2.1)).2.2 ≤ 1 := by
  by_cases hs : (pyStrip text).length < 10
  · simp [get_embedding_internal, hs]
  · rcases hl : cacheLookup c (hash (text.take 8000)) with _ | v
    · rcases h with h | ⟨hroom, hp⟩ | h
      · rw [hl] at h
        simp at h
      · obtain ⟨v, rfl⟩ := Option.isSome_iff_exists.mp hp
        have h2 := cacheLookup_after_store c (hash (text.take 8000)) v hl
        simp [get_embedding_internal, hs, hl, hroom, h2]
      · exact absurd h hs
    · simp [get_embedding_internal, hs, hl]

/-- C6 witness: from the empty cache, two calls on a ten-character text
with a succeeding provider return the same vector with one provider
invocation in total. -/
theorem c6_cache_idempotent_witness :
    ((⟨[]⟩ : EmbCache).entries.length < MAX_CACHE_SIZE
      ∧ (some [5] : Option (List Int)).isSome) ∧
    ((get_embedding_internal id (some [5]) text10 ⟨[]⟩).1
      = (get_embedding_internal id (some [6]) text10
          ((get_embedding_internal id (some [5]) text10 ⟨[]⟩).2.1)).1
    ∧ (get_embedding_internal id (some [5]) text10 ⟨[]⟩).2.2
      + (get_embedding_internal id (some [6]) text10
          ((get_embedding_internal id (some [5]) text10 ⟨[]⟩).2.1)).2.2 ≤ 1) :=
  ⟨⟨by decide, by decide⟩,
   c6_cache_idempotent id text10 ⟨[]⟩ (some [5]) (some [6])
     (Or.inr (Or.inl ⟨by decide, by decide⟩))⟩

/-- Appending turns concatenates the corresponding human/ai message
pairs onto the stored messages. -/
theorem appendTurns_messages (ts : List (List Char × List Char))
    (m : ConversationBufferWindowMemory) :
    (appendTurns m ts).messages
      = m.messages ++ ts.flatMap (fun p => [⟨.human, p.1⟩, ⟨.ai, p.2⟩]) := by
  induction ts generalizing m with
  | nil => simp [appendTurns]
  | cons t ts ih =>
    have : appendTurns m (t :: ts) = appendTurns (save_context m t.1 t.2) ts := rfl
    rw [this, ih]
    simp [save_context]

/-- Appending turns does not change the window size. -/
theorem appendTurns_k (ts : List (List Char × List Char))
    (m : ConversationBufferWindowMemory) :
    (appendTurns m ts).k = m.k := by
  induction ts generalizing m with
  | nil => rfl
  | cons t ts ih =>
    have : appendTurns m (t :: ts) = appendTurns (save_context m t.1 t.2) ts := rfl
    rw [this, ih]
    rfl

/-- Each appended turn contributes exactly two stored messages. -/
theorem appendTurns_messages_length (ts : List (List Char × List Char)) :
    (appendTurns get_memory_fresh ts).messages.length = 2 * ts.length := by
  rw [appendTurns_messages]
  induction ts with
  | nil => rfl
  | cons t ts ih =>
    simp only [List.flatMap_cons, List.length_append, List.length_cons] at *
    simp only [get_memory_fresh, List.length_nil] at *
    omega

/-- C7 (amended): after appending any sequence of turns to a fresh
session memory (window K = 10), the readable history returned by
get_session_history contains every appended turn, oldest first, with no
eviction; the window applies only to the buffer the memory loads for
the chain, which consists of the last 2K stored messages, that is the K
most-recent turns. -/
theorem c7_history_and_window (turns : List (List Char × List Char)) :
    get_session_history (appendTurns get_memory_fresh turns)
      = turns.flatMap (fun p => [("user".toList, p.1), ("assistant".toList, p.2)])
    ∧ loadBufferWindow (appendTurns get_memory_fresh turns)
      = (appendTurns get_memory_fresh turns).messages.drop
          (2 * turns.length - 2 * get_memory_fresh.k) := by
  constructor
  · unfold get_session_history
    rw [appendTurns_messages]
    simp [get_memory_fresh]
    induction turns with
    | nil => rfl
    | cons t ts ih => simp [ih]
  · unfold loadBufferWindow
    rw [appendTurns_k, appendTurns_messages_length]
    simp [get_memory_fresh]

/-- C8 (amended): when the re-ranking stage is unavailable and the
multi-query fan-out produced at least one candidate, the composed
retrieval pipeline raises the re-ranking error, which propagates to
the caller (query_with_advanced_memory wraps nothing in an exception
handler); there is no fallback to raw similarity order. -/
theorem c8_rerank_error_propagates (llmResp : List Char)
    (search : List Char → List RDoc) (q : List Char)
    (h : multiQueryRetrieve llmResp search q ≠ []) :
    get_advanced_retriever llmResp search none q
      = .error ("reranker unavailable".toList) := by
  unfold get_advanced_retriever compressionRetrieve flashrankRerank
  simp [List.isEmpty_iff, h]

/-- C8 witness: a concrete run with two expansion variants and a
search returning one document, with the re-ranker unavailable. -/
theorem c8_rerank_error_propagates_witness :
    multiQueryRetrieve ("w1\nw2".toList) (fun _ => [⟨"docA".toList⟩]) ("q0".toList) ≠ [] ∧
    get_advanced_retriever ("w1\nw2".toList) (fun _ => [⟨"docA".toList⟩]) none ("q0".toList)
      = .error ("reranker unavailable".toList) :=
  ⟨by decide, c8_rerank_error_propagates _ _ _ (by decide)⟩

/-- Every chunk emitted by the hard-cut fallback loop is at most S
characters long. -/
theorem hardCutFuel_length_le (t : List Char) (S O : Nat) :
    ∀ (fuel i : Nat) (c : List Char), c ∈ hardCutFuel t S O fuel i → c.length ≤ S := by
  intro fuel
  induction fuel with
  | zero => simp [hardCutFuel]
  | succ fuel ih =>
    intro i c hc
    unfold hardCutFuel at hc
    by_cases hi : i < t.length
    · rw [if_pos hi] at hc
      rcases List.mem_cons.mp hc with h | h
      · subst h
        calc ((t.drop i).take (min (i + S) t.length - i)).length
            ≤ min (i + S) t.length - i := by
              simp [List.length_take]
          _ ≤ S := by omega
      · by_cases he : min (i + S) t.length < t.length
        · rw [if_pos he] at h
          exact ih _ c h
        · rw [if_neg he] at h
          simp at h
    · rw [if_neg hi] at hc
      simp at hc

/-- Every chunk returned by a committed separator pass is at most S
characters long: the committing condition checks exactly that. -/
theorem trySeps_length_le (S O : Nat) (t : List Char) :
    ∀ (seps : List (List Char)) (c : List Char),
      c ∈ trySeps S O t seps → c.length ≤ S := by
  intro seps
  induction seps with
  | nil => simp [trySeps]
  | cons sep rest ih =>
    intro c hc
    unfold trySeps at hc
    by_cases h : tryPass sep S O t ≠ [] ∧ ∀ x ∈ tryPass sep S O t, x.length ≤ S
    · rw [if_pos h] at hc
      exact h.2 c hc
    · rw [if_neg h] at hc
      exact ih c hc

/-- C2: every chunk emitted by the generic recursive splitter is at
most S characters long, and every chunk produced by chunk_text_smart
for a non-tabular mime type (the tabular row path being the only
exception allowed by the claim) is at most S characters long. -/
theorem c2_chunk_size_bound :
    (∀ (t : List Char) (S O : Nat) (c : List Char),
      c ∈ recursive_chunk t S O → c.length ≤ S)
    ∧ (∀ (t mime : List Char) (S O : Nat) (ch : Chunk),
      (containsSeq "spreadsheet".toList mime || containsSeq "csv".toList mime) = false →
      ch ∈ chunk_text_smart t mime S O → ch.text.length ≤ S) := by
  have hrc : ∀ (t : List Char) (S O : Nat) (c : List Char),
      c ∈ recursive_chunk t S O → c.length ≤ S := by
    intro t S O c hc
    unfold recursive_chunk at hc
    by_cases h : (trySeps S O t separators).isEmpty
    · rw [if_pos h] at hc
      exact hardCutFuel_length_le t S O _ _ c hc
    · rw [if_neg h] at hc
      exact trySeps_length_le S O t separators c hc
  refine ⟨hrc, ?_⟩
  intro t mime S O ch hmime hch
  unfold chunk_text_smart at hch
  have hcond : ¬ ((containsSeq "spreadsheet".toList mime
      || containsSeq "csv".toList mime) = true) := by
    rw [hmime]
    exact Bool.false_ne_true
  rw [if_neg hcond] at hch
  by_cases hpdf : (containsSeq "pdf".toList mime && containsSeq "[PAGE ".toList t) = true
  · rw [if_pos hpdf] at hch
    rcases List.mem_flatMap.mp hch with ⟨p, _, hp⟩
    by_cases hempty : (pyStrip p.2).isEmpty
    · rw [if_pos hempty] at hp
      simp at hp
    · rw [if_neg hempty] at hp
      rcases List.mem_map.mp hp with ⟨c, hc, rfl⟩
      exact hrc _ S O c hc
  · rw [if_neg hpdf] at hch
    rcases List.mem_map.mp hch with ⟨c, hc, rfl⟩
    exact hrc t S O c hc

/-- C2 witness: a concrete non-tabular chunking within the bound. -/
theorem c2_chunk_size_bound_witness :
    ("hel".toList ∈ recursive_chunk ("hello".toList) 3 1 ∧ ("hel".toList).length ≤ 3)
    ∧ ((containsSeq "spreadsheet".toList ("text/plain".toList)
          || containsSeq "csv".toList ("text/plain".toList)) = false
       ∧ (⟨"hel".toList, .plain⟩ : Chunk) ∈
           chunk_text_smart ("hello".toList) ("text/plain".toList) 3 1
       ∧ (Chunk.text ⟨"hel".toList, .plain⟩).length ≤ 3) :=
  ⟨⟨by decide, c2_chunk_size_bound.1 ("hello".toList) 3 1 ("hel".toList) (by decide)⟩,
   ⟨by decide, by decide,
    c2_chunk_size_bound.2 ("hello".toList) ("text/plain".toList) 3 1
      ⟨"hel".toList, .plain⟩ (by decide) (by decide)⟩⟩

/-- Under 0 < S and O < S the hard-cut loop advances by at least one
character per step, so any fuel at least the remaining length yields
the same result: the loop terminates. -/
theorem hardCutFuel_stable (t : List Char) (S O : Nat) (hO : O < S) :
    ∀ (n m i : Nat), t.length - i ≤ n →
      hardCutFuel t S O (n + m) i = hardCutFuel t S O n i := by
  intro n
  induction n with
  | zero =>
    intro m i hi
    cases m with
    | zero => rfl
    | succ m =>
      have hfu : 0 + (m + 1) = m + 1 := by omega
      rw [hfu]
      unfold hardCutFuel
      rw [if_neg (by omega)]
  | succ n ih =>
    intro m i hi
    have hfu : n + 1 + m = (n + m) + 1 := by omega
    rw [hfu]
    unfold hardCutFuel
    by_cases hlt : i < t.length
    · rw [if_pos hlt, if_pos hlt]
      by_cases he : min (i + S) t.length < t.length
      · rw [if_pos he, if_pos he]
        have he2 : min (i + S) t.length = i + S := by omega
        rw [he2]
        rw [ih m (i + S - O) (by omega)]
      · rw [if_neg he, if_neg he]
    · rw [if_neg hlt, if_neg hlt]

/-- C10: under the precondition 0 < S and O < S the hard-cut fallback
loop of the recursive chunker is fuel-insensitive at fuel equal to the
text length, that is the loop terminates, and the chunker returns at
least one chunk for every non-empty input; without the precondition
the fallback loop need not make progress: at S = O = 1, each unit of
additional fuel yields a strictly different (longer) result, the index
never advancing. -/
theorem c10_chunker_termination :
    (∀ (t : List Char) (S O m : Nat), 0 < S → O < S →
      hardCutFuel t S O (t.length + m) 0 = hardCutFuel t S O t.length 0)
    ∧ (∀ (t : List Char) (S O : Nat), 0 < S → O < S → t ≠ [] →
      recursive_chunk t S O ≠ [])
    ∧ (∀ n : Nat, hardCutFuel ("ab".toList) 1 1 (n + 1) 0
        ≠ hardCutFuel ("ab".toList) 1 1 n 0) := by
  refine ⟨?_, ?_, ?_⟩
  · intro t S O m _ hO
    exact hardCutFuel_stable t S O hO t.length m 0 (by omega)
  · intro t S O hS hO ht
    unfold recursive_chunk
    by_cases h : (trySeps S O t separators).isEmpty
    · rw [if_pos h]
      have hlen : 0 < t.length := List.length_pos.mpr ht
      rcases hl : t.length with _ | n
      · omega
      · unfold hardCutFuel
        rw [if_pos (by omega)]
        exact List.cons_ne_nil _ _
    · rw [if_neg h]
      exact fun hcon => h (by rw [hcon]; rfl)
  · have hlen : ∀ n : Nat, (hardCutFuel ("ab".toList) 1 1 n 0).length = n := by
      intro n
      induction n with
      | zero => rfl
      | succ k ih =>
        unfold hardCutFuel
        rw [if_pos (by decide)]
        have : min (0 + 1) ("ab".toList).length < ("ab".toList).length := by decide
        rw [if_pos this]
        simp only [List.length_cons]
        have h01 : min (0 + 1) ("ab".toList).length - 1 = 0 := by decide
        rw [h01, ih]
    intro n hcon
    have := congrArg List.length hcon
    rw [hlen, hlen] at this
    omega

/-- C10 witness: termination and non-emptiness at S = 2, O = 1 on the
two-character input ab. -/
theorem c10_chunker_termination_witness :
    (hardCutFuel ("ab".toList) 2 1 (("ab".toList).length + 5) 0
      = hardCutFuel ("ab".toList) 2 1 ("ab".toList).length 0)
    ∧ recursive_chunk ("ab".toList) 2 1 ≠ [] :=
  ⟨c10_chunker_termination.1 _ 2 1 5 (by decide) (by decide),
   c10_chunker_termination.2.1 _ 2 1 (by decide) (by decide) (by decide)⟩

/-- The sync loop processes every enumerated file: starting from any
accumulator state it adds one synced count per successful file, one
skipped count per non-synced file, appends one error entry (filename
and message) per failed file, and appends every file's operation trace
in order. -/
theorem runSyncAux_spec (env : SyncEnv) (mid : List Char) :
    ∀ (files : List FileEntry) (syn skp : Nat)
      (errs : List (List Char × List Char)) (tr : List VOp),
      runSyncAux env mid files (syn, skp, errs, tr)
        = (syn + (files.filter (fun f => (processFile env mid f).1 = .synced)).length,
           skp + (files.filter (fun f => (processFile env mid f).1 ≠ .synced)).length,
           errs ++ files.filterMap (fun f =>
             match (processFile env mid f).1 with
             | .failed e => some (f.name, e)
             | _ => none),
           tr ++ files.flatMap (fun f => (processFile env mid f).2)) := by
  intro files
  induction files with
  | nil => intro syn skp errs tr; simp [runSyncAux]
  | cons f fs ih =>
    intro syn skp errs tr
    rcases ho : (processFile env mid f).1 with _ | _ | _ | _ | _ | _ | e <;>
      simp [runSyncAux, ho, ih, List.filter_cons, List.filterMap_cons,
        List.flatMap_cons, List.append_assoc] <;>
      omega

/-- C5 (amended): whenever the initial enumeration succeeds, the sync
run returns a summary covering every enumerated file: totalFiles
equals the number of files, every file is counted exactly once (synced
or skipped), every per-file exception that reaches the sync loop (a
download failure or a batch-upsert failure) is recorded in the error
list with the filename and counted in skippedCount while later files
are still processed, and the run raises a fatal error exactly when the
enumeration itself failed.  The error list holds exactly the files
with a failed outcome: parse failures (converted to placeholder text
by parse_content) and embedding failures (converted to None by
get_embedding_internal) never produce an error entry, so the claim as
frozen fails for them (see the counterexample). -/
theorem c5_sync_error_containment :
    (∀ (env : SyncEnv) (mid : List Char) (files : List FileEntry),
      (runSync env mid files).1.totalFiles = files.length
      ∧ (runSync env mid files).1.syncedCount + (runSync env mid files).1.skippedCount
          = files.length
      ∧ (runSync env mid files).1.errors.getD []
          = files.filterMap (fun f =>
              match (processFile env mid f).1 with
              | .failed e => some (f.name, e)
              | _ => none)
      ∧ (runSync env mid files).1.skippedCount
          = (files.filter (fun f => (processFile env mid f).1 ≠ FileOutcome.synced)).length
      ∧ sync_drive_folder (.ok files) env mid = .ok (runSync env mid files))
    ∧ (∀ (e : List Char) (env : SyncEnv) (mid : List Char),
        sync_drive_folder (.error e) env mid = .error e) := by
  constructor
  · intro env mid files
    have hspec := runSyncAux_spec env mid files 0 0 [] []
    have hrun : runSync env mid files
        = (⟨true,
            (files.filter (fun f => (processFile env mid f).1 = .synced)).length,
            (files.filter (fun f => (processFile env mid f).1 ≠ .synced)).length,
            files.length,
            if (files.filterMap (fun f =>
                match (processFile env mid f).1 with
                | .failed e => some (f.name, e)
                | _ => none)).isEmpty then none
            else some (files.filterMap (fun f =>
                match (processFile env mid f).1 with
                | .failed e => some (f.name, e)
                | _ => none))⟩,
           files.flatMap (fun f => (processFile env mid f).2)) := by
      unfold runSync
      rw [hspec]
      simp
    refine ⟨by rw [hrun], ?_, ?_, by rw [hrun], by simp [sync_drive_folder]⟩
    · rw [hrun]
      have key := List.length_eq_length_filter_add (l := files)
        (fun g => (processFile env mid g).1 = FileOutcome.synced)
      simp only [ne_eq, decide_not] at key ⊢
      omega
    · rw [hrun]
      simp only
      by_cases hemp : (files.filterMap (fun f =>
          match (processFile env mid f).1 with
          | .failed e => some (f.name, e)
          | _ => none)).isEmpty
      · rw [if_pos hemp]
        simp only [Option.getD_none]
        exact (List.isEmpty_iff.mp hemp).symm
      · rw [if_neg hemp]
        rfl
  · intro e env mid
    rfl

/-- C5 counterexample: exceptions raised during embedding or parsing
are not recorded in the error list.  First run: the embedding provider
raises on every chunk of a new file (get_embedding_internal returns
None), all chunks are dropped, the file is counted skipped, and the
error list stays empty: nothing is recorded with the filename.  Second
run: the underlying parser raises and parse_content substitutes its
placeholder text, which is long enough to be indexed: the file is even
counted synced, with no error entry and nothing added to skippedCount. -/
theorem c5_silent_failure_counterexample :
    ((runSync envEmbedFail ("m".toList) [file4]).1.errors = none
      ∧ (runSync envEmbedFail ("m".toList) [file4]).1.skippedCount = 1
      ∧ (runSync envEmbedFail ("m".toList) [file4]).1.syncedCount = 0)
    ∧ ((runSync envParseFail ("m".toList) [file4]).1.errors = none
      ∧ (runSync envParseFail ("m".toList) [file4]).1.syncedCount = 1
      ∧ (runSync envParseFail ("m".toList) [file4]).1.skippedCount = 0) := by
  decide

/-- Every operation attempted by the batch upsert is an upsert tagged
with the given file id. -/
theorem batchUpsertAux_ops_upsert (env : SyncEnv) (fid : List Char) :
    ∀ (fuel : Nat) (vecs : List (List Char × List Int)) (bidx : Nat),
      ∀ op ∈ (batchUpsertAux env fid fuel vecs bidx).1,
        ∃ k, op = VOp.upsertOp fid k := by
  intro fuel
  induction fuel with
  | zero =>
    intro vecs bidx op hop
    cases vecs with
    | nil => simp [batchUpsertAux] at hop
    | cons v vs => simp [batchUpsertAux] at hop
  | succ fuel ih =>
    intro vecs bidx op hop
    cases vecs with
    | nil => simp [batchUpsertAux] at hop
    | cons v vs =>
      simp only [batchUpsertAux] at hop
      rcases hub : env.upsertBatch ((v :: vs).take 100) with _ | e <;>
        rw [hub] at hop <;> simp only [List.mem_cons, List.mem_singleton,
          List.not_mem_nil, or_false] at hop
      · rcases hop with h | h
        · exact ⟨bidx, h⟩
        · exact ih _ _ op h
      · exact ⟨bidx, hop⟩

/-- The operations issued on behalf of one file take one of three
shapes: none at all (unsupported file), the staleness probe alone
(unchanged file), or the probe followed by the conditional delete
(issued exactly when the probed time is truthy) followed by upsert
operations only. -/
theorem processFile_ops_split (env : SyncEnv) (mid : List Char) (f : FileEntry) :
    (processFile env mid f).2 = []
    ∨ (processFile env mid f).2 = [VOp.fetchOp f.fid]
    ∨ ∃ rest : List VOp,
        (processFile env mid f).2
          = VOp.fetchOp f.fid ::
            ((if truthyTime (env.indexedTime f.fid) = true
              then [VOp.deleteOp f.fid] else []) ++ rest)
        ∧ ∀ op ∈ rest, ∃ k, op = VOp.upsertOp f.fid k := by
  simp only [processFile]
  split
  · simp
  · split
    · simp
    · split
      · right; right
        exact ⟨[], by simp, by simp⟩
      · rename_i content heq
        split
        · right; right
          exact ⟨[], by simp, by simp⟩
        · split
          · right; right
            exact ⟨[], by simp, by simp⟩
          · split
            · right; right
              exact ⟨[], by simp, by simp⟩
            · split
              · right; right
                refine ⟨(batchUpsertAux env f.fid
                    (buildVectors env mid f
                      (chunk_text_smart (env.parse content) f.mime 1000 200)).length
                    (buildVectors env mid f
                      (chunk_text_smart (env.parse content) f.mime 1000 200)) 0).1,
                  by simp, ?_⟩
                exact fun op hop => batchUpsertAux_ops_upsert env f.fid _ _ _ op hop
              · right; right
                refine ⟨(batchUpsertAux env f.fid
                    (buildVectors env mid f
                      (chunk_text_smart (env.parse content) f.mime 1000 200)).length
                    (buildVectors env mid f
                      (chunk_text_smart (env.parse content) f.mime 1000 200)) 0).1,
                  by simp, ?_⟩
                exact fun op hop => batchUpsertAux_ops_upsert env f.fid _ _ _ op hop

/-- C4 (amended): during a sync run, for every document whose
previously recorded modified_time is found, non-empty, and differs from
the modified time of every listed entry of that document, every upsert
operation issued for that document is strictly preceded in the
vector-store operation trace by the filtered delete for that document.
The non-emptiness proviso is forced by the truthiness test of the code:
a recorded empty time is treated as not indexed and no delete is issued
(see the counterexample). -/
theorem c4_delete_before_upsert (env : SyncEnv) (mid : List Char)
    (files : List FileEntry) (fid t : List Char)
    (hidx : env.indexedTime fid = some t) (ht : t ≠ [])
    (hall : ∀ f ∈ files, f.fid = fid → f.modTime ≠ t) :
    ∀ (j k : Nat), ((runSync env mid files).2)[j]? = some (VOp.upsertOp fid k) →
      ∃ i, i < j ∧ ((runSync env mid files).2)[i]? = some (VOp.deleteOp fid) := by
  have htr : (runSync env mid files).2
      = files.flatMap (fun f => (processFile env mid f).2) := by
    unfold runSync
    rw [runSyncAux_spec]
    simp
  rw [htr]
  clear htr
  revert hall
  induction files with
  | nil =>
    intro hall j k h
    simp at h
  | cons f fs ih =>
    intro hall j k hj
    rw [List.flatMap_cons] at hj
    by_cases hjL : j < ((processFile env mid f).2).length
    · rw [List.getElem?_append, if_pos hjL] at hj
      have hmem : VOp.upsertOp fid k ∈ (processFile env mid f).2 :=
        List.getElem?_mem hj
      rcases processFile_ops_split env mid f with h0 | h1 | ⟨rest, hsh, hups⟩
      · rw [h0] at hj
        simp at hj
      · rw [h1] at hj
        rcases j with _ | j
        · simp at hj
        · simp at hj
      · have hfid : f.fid = fid := by
          rw [hsh] at hmem
          rcases List.mem_cons.mp hmem with h | h
          · simp at h
          · rcases List.mem_append.mp h with h2 | h2
            · by_cases htt : truthyTime (env.indexedTime f.fid) = true
              · rw [if_pos htt] at h2
                simp at h2
              · rw [if_neg htt] at h2
                simp at h2
            · obtain ⟨k2, hk⟩ := hups _ h2
              injection hk with h3 _
              exact h3.symm
        have hidx2 : env.indexedTime f.fid = some t := by
          rw [hfid]
          exact hidx
        have htt : truthyTime (env.indexedTime f.fid) = true := by
          rw [hidx2]
          simp [truthyTime, ht]
        rw [if_pos htt] at hsh
        have hj2 : 2 ≤ j := by
          rcases j with _ | j
          · rw [hsh] at hj
            simp at hj
          · rcases j with _ | j
            · rw [hsh] at hj
              simp at hj
            · omega
        refine ⟨1, by omega, ?_⟩
        have h1L : 1 < ((processFile env mid f).2).length := by
          rw [hsh]
          simp
        rw [List.flatMap_cons, List.getElem?_append, if_pos h1L, hsh]
        simp [hfid]
    · push_neg at hjL
      rw [List.getElem?_append, if_neg (by omega)] at hj
      obtain ⟨i, hi, hdel⟩ :=
        ih (fun g hg hg2 => hall g (List.mem_cons_of_mem f hg) hg2) _ k hj
      refine ⟨((processFile env mid f).2).length + i, by omega, ?_⟩
      rw [List.flatMap_cons, List.getElem?_append, if_neg (by omega)]
      have harith : ((processFile env mid f).2).length + i
          - ((processFile env mid f).2).length = i := by omega
      rw [harith]
      exact hdel

/-- C4 counterexample: a document whose recorded modified_time is the
empty string (found, and different from the current modified time 2024)
is treated as new by the truthiness test: the trace contains an upsert
for it with no preceding delete. -/
theorem c4_empty_time_counterexample :
    (env4 (some [])).indexedTime ("f1".toList) = some [] ∧
    ([] : List Char) ≠ file4.modTime ∧
    (runSync (env4 (some [])) ("m".toList) [file4]).2
      = [VOp.fetchOp ("f1".toList), VOp.upsertOp ("f1".toList) 0] ∧
    ¬ ∃ i, i < 1 ∧ (runSync (env4 (some [])) ("m".toList) [file4]).2[i]?
      = some (VOp.deleteOp ("f1".toList)) := by
  refine ⟨rfl, by decide, by decide, ?_⟩
  rintro ⟨i, hi, hdel⟩
  interval_cases i
  revert hdel
  decide

/-- C4 witness: with a non-empty recorded time 1 differing from the
current time 2024, the trace is fetch, delete, upsert, and the theorem
yields a delete strictly before the upsert at position 2. -/
theorem c4_delete_before_upsert_witness :
    (env4 (some ['1'])).indexedTime ("f1".toList) = some ['1'] ∧
    (runSync (env4 (some ['1'])) ("m".toList) [file4]).2[2]?
      = some (VOp.upsertOp ("f1".toList) 0) ∧
    ∃ i, i < 2 ∧ (runSync (env4 (some ['1'])) ("m".toList) [file4]).2[i]?
      = some (VOp.deleteOp ("f1".toList)) :=
  ⟨rfl, by decide,
   c4_delete_before_upsert (env4 (some ['1'])) ("m".toList) [file4]
     ("f1".toList) ['1'] rfl (by decide)
     (by intro f hf h2; simp at hf; rw [hf]; decide) 2 0 (by decide)⟩

/-- Stripping a whitespace-only text yields the empty text. -/
theorem pyStrip_eq_nil (t : List Char) (h : ∀ c ∈ t, pyIsSpace c) :
    pyStrip t = [] := by
  unfold pyStrip
  rw [List.dropWhile_eq_nil_iff.mpr h]
  rfl

/-- The generic recursive splitter yields no chunks on empty input:
every separator pass packs the single empty part into an empty buffer
and commits nothing, and the fallback loop runs zero iterations. -/
theorem recursive_chunk_nil (S O : Nat) : recursive_chunk [] S O = [] := by
  simp [recursive_chunk, trySeps, separators, tryPass, split_with_separator,
    splitAux, packLoop, hardCutFuel]

/-- C9 (amended): empty input yields zero chunks on every path
(tabular, page-marked and generic), and whitespace-only input yields
zero chunks on the tabular row path; a non-empty whitespace-only input
on the generic path instead yields a chunk containing the whitespace
itself (see the counterexample), so the unrestricted claim fails
there. -/
theorem c9_empty_and_whitespace_chunks :
    (∀ (mime : List Char) (S O : Nat), chunk_text_smart [] mime S O = [])
    ∧ (∀ (t mime : List Char) (S O : Nat),
        (containsSeq "spreadsheet".toList mime || containsSeq "csv".toList mime) = true →
        (∀ c ∈ t, pyIsSpace c) →
        chunk_text_smart t mime S O = []) := by
  constructor
  · intro mime S O
    by_cases htab : (containsSeq "spreadsheet".toList mime
        || containsSeq "csv".toList mime) = true
    · simp only [chunk_text_smart, if_pos htab]
      rfl
    · simp only [chunk_text_smart, if_neg htab]
      have hpg : containsSeq "[PAGE ".toList ([] : List Char) = false := rfl
      rw [hpg, Bool.and_false]
      simp only [Bool.false_eq_true, if_false, recursive_chunk_nil, List.map_nil]
  · intro t mime S O htab hws
    simp only [chunk_text_smart, if_pos htab, pyStrip_eq_nil t hws]
    rfl

/-- C9 witness: a single-space tabular (csv) input yields zero
chunks. -/
theorem c9_empty_and_whitespace_chunks_witness :
    ((containsSeq "spreadsheet".toList ("text/csv".toList)
        || containsSeq "csv".toList ("text/csv".toList)) = true
      ∧ ∀ c ∈ [' '], pyIsSpace c)
    ∧ chunk_text_smart ([' ']) ("text/csv".toList) 1000 200 = [] :=
  ⟨⟨by decide, by decide⟩,
   c9_empty_and_whitespace_chunks.2 ([' ']) ("text/csv".toList) 1000 200
     (by decide) (by decide)⟩

/-- A prefix of `l` only holds characters of `l`. -/
theorem startsWithSeq_mem :
    ∀ (pre l : List Char), startsWithSeq pre l = true → ∀ c ∈ pre, c ∈ l := by
  intro pre
  induction pre with
  | nil => simp
  | cons p ps ih =>
    intro l h c hc
    cases l with
    | nil => simp [startsWithSeq] at h
    | cons x xs =>
      simp only [startsWithSeq, Bool.and_eq_true, beq_iff_eq] at h
      rcases List.mem_cons.mp hc with rfl | hmem
      · rw [h.1]
        exact List.mem_cons_self x xs
      · exact List.mem_cons_of_mem x (ih xs h.2 c hmem)

/-- When some character of the separator does not occur in the text,
the split returns the text as its sole part. -/
theorem splitAux_no_occur (s0 : Char) (sr : List Char) (c0 : Char)
    (hc : c0 ∈ s0 :: sr) :
    ∀ (fuel : Nat) (t acc : List Char), c0 ∉ t →
      splitAux s0 sr fuel t acc = [acc.reverse ++ t] := by
  intro fuel
  induction fuel with
  | zero =>
    intro t acc h
    cases t with
    | nil => simp [splitAux]
    | cons c rest => rfl
  | succ fuel ih =>
    intro t acc h
    cases t with
    | nil => simp [splitAux]
    | cons c rest =>
      have hpre : startsWithSeq (s0 :: sr) (c :: rest) = false := by
        cases hsw : startsWithSeq (s0 :: sr) (c :: rest) with
        | false => rfl
        | true => exact absurd (startsWithSeq_mem _ _ hsw c0 hc) h
      simp only [splitAux, hpre, Bool.false_eq_true, if_false]
      rw [ih rest (c :: acc) (fun hm => h (List.mem_cons_of_mem c hm))]
      simp

/-- The packing loop only appends to the accumulated chunk list. -/
theorem packLoop_acc (sep : List Char) (S O : Nat) :
    ∀ (parts : List (List Char)) (cur : List Char) (acc : List (List Char)),
      packLoop sep S O parts cur acc
        = (acc ++ (packLoop sep S O parts cur []).1,
           (packLoop sep S O parts cur []).2) := by
  intro parts
  induction parts with
  | nil =>
    intro cur acc
    simp [packLoop]
  | cons part rest ih =>
    intro cur acc
    simp only [packLoop]
    split
    · split
      · rw [ih _ acc, ih _ ([] : List (List Char))]
      · split
        · rw [ih _ (acc ++ [part.take S]), ih _ ([] ++ [part.take S])]
          simp
        · simp
    · split
      · rw [ih _ acc, ih _ ([] : List (List Char))]
      · rw [ih _ (acc ++ [cur]), ih _ ([] ++ [cur])]
        simp

/-- Invariant of the character-separator pass: starting from a
non-empty buffer within the size bound, every emitted chunk is within
the bound and the final buffer is non-empty and within the bound
(requires 0 < O < S so the carried-over seed fits). -/
theorem packNil_size (S O : Nat) (hO : 0 < O) (hOS : O < S) :
    ∀ (rest cur : List Char), 0 < cur.length → cur.length ≤ S →
      (∀ ch ∈ (packLoop [] S O (rest.map (fun c => [c])) cur []).1, ch.length ≤ S)
      ∧ (packLoop [] S O (rest.map (fun c => [c])) cur []).2.length ≤ S
      ∧ (packLoop [] S O (rest.map (fun c => [c])) cur []).2 ≠ [] := by
  intro rest
  induction rest with
  | nil =>
    intro cur h1 h2
    refine ⟨by simp [packLoop], by simpa [packLoop], ?_⟩
    simp only [List.map_nil, packLoop]
    exact List.length_pos.mp h1
  | cons c rest ih =>
    intro cur h1 h2
    have hemp : cur.isEmpty = false := by
      rcases cur with _ | ⟨x, xs⟩
      · simp at h1
      · rfl
    simp only [List.map_cons, packLoop, hemp, Bool.false_eq_true, if_false,
      ite_self, List.append_nil, List.nil_append]
    split
    · next hgrow =>
      exact ih (cur ++ [c]) (by simp) (by simpa using hgrow)
    · next hover =>
      have hcS : cur.length = S := by
        simp [List.length_append] at hover
        omega
      have hOc : O < cur.length := by omega
      rw [if_pos hOc]
      have hns : pyNegSlice O cur = cur.drop (cur.length - O) := by
        simp [pyNegSlice]
        omega
      rw [hns, packLoop_acc]
      have hnewlen : (cur.drop (cur.length - O) ++ [c]).length = O + 1 := by
        simp [List.length_drop]
        omega
      obtain ⟨ihA, ihB, ihC⟩ := ih (cur.drop (cur.length - O) ++ [c])
        (by rw [hnewlen]; omega) (by rw [hnewlen]; omega)
      refine ⟨?_, ihB, ihC⟩
      intro ch hch
      simp only [List.nil_append, List.mem_append, List.mem_singleton] at hch
      rcases hch with hch | hch
      · rw [hch, hcS]
      · exact ihA ch hch

/-- Overlap-removal invariant of the character-separator pass, for the
continuation chunks: dropping the first O characters of every produced
chunk (the emitted ones and the final buffer) and concatenating yields
the buffer minus its seeded overlap followed by the remaining text. -/
theorem packNil_reconDrop (S O : Nat) (hO : 0 < O) (hOS : O < S) :
    ∀ (rest cur : List Char), O ≤ cur.length → cur.length ≤ S →
      ((packLoop [] S O (rest.map (fun c => [c])) cur []).1.map
          (fun x => x.drop O)).flatten
        ++ (packLoop [] S O (rest.map (fun c => [c])) cur []).2.drop O
        = cur.drop O ++ rest := by
  intro rest
  induction rest with
  | nil =>
    intro cur hOc h2
    simp [packLoop]
  | cons c rest ih =>
    intro cur hOc h2
    have h1 : 0 < cur.length := by omega
    have hemp : cur.isEmpty = false := by
      rcases cur with _ | ⟨x, xs⟩
      · simp at h1
      · rfl
    simp only [List.map_cons, packLoop, hemp, Bool.false_eq_true, if_false,
      ite_self, List.append_nil, List.nil_append]
    split
    · next hgrow =>
      rw [ih (cur ++ [c]) (by simp; omega) (by simpa using hgrow)]
      rw [List.drop_append_of_le_length hOc]
      simp
    · next hover =>
      have hcS : cur.length = S := by
        simp [List.length_append] at hover
        omega
      rw [if_pos (show O < cur.length by omega)]
      have hns : pyNegSlice O cur = cur.drop (cur.length - O) := by
        simp [pyNegSlice]
        omega
      rw [hns, packLoop_acc]
      have hdlen : (cur.drop (cur.length - O)).length = O := by
        simp [List.length_drop]
        omega
      have hih := ih (cur.drop (cur.length - O) ++ [c])
        (by simp [List.length_append]; omega)
        (by simp [List.length_append]; omega)
      simp only [List.nil_append, List.map_cons, List.flatten_cons,
        List.map_append, List.flatten_append, List.append_assoc]
      rw [hih]
      rw [List.drop_append_of_le_length (by omega : O ≤ (cur.drop (cur.length - O)).length)]
      rw [show (cur.drop (cur.length - O)).drop O = [] from
        List.drop_eq_nil_of_le (by rw [hdlen])]
      simp

/-- Round-trip invariant of the character-separator pass: the first
chunk kept whole and the first O characters of every later chunk
removed reconstruct the buffer followed by the remaining text. -/
theorem packNil_recon (S O : Nat) (hO : 0 < O) (hOS : O < S) :
    ∀ (rest cur : List Char), 0 < cur.length → cur.length ≤ S →
      reconOverlap O
          ((packLoop [] S O (rest.map (fun c => [c])) cur []).1
            ++ [(packLoop [] S O (rest.map (fun c => [c])) cur []).2])
        = cur ++ rest := by
  intro rest
  induction rest with
  | nil =>
    intro cur h1 h2
    simp [packLoop, reconOverlap]
  | cons c rest ih =>
    intro cur h1 h2
    have hemp : cur.isEmpty = false := by
      rcases cur with _ | ⟨x, xs⟩
      · simp at h1
      · rfl
    simp only [List.map_cons, packLoop, hemp, Bool.false_eq_true, if_false,
      ite_self, List.append_nil, List.nil_append]
    split
    · next hgrow =>
      rw [ih (cur ++ [c]) (by simp) (by simpa using hgrow)]
      simp
    · next hover =>
      have hcS : cur.length = S := by
        simp [List.length_append] at hover
        omega
      rw [if_pos (show O < cur.length by omega)]
      have hns : pyNegSlice O cur = cur.drop (cur.length - O) := by
        simp [pyNegSlice]
        omega
      rw [hns, packLoop_acc]
      have hdlen : (cur.drop (cur.length - O)).length = O := by
        simp [List.length_drop]
        omega
      have hB := packNil_reconDrop S O hO hOS rest (cur.drop (cur.length - O) ++ [c])
        (by simp [List.length_append]; omega)
        (by simp [List.length_append]; omega)
      simp only [List.nil_append, List.cons_append, reconOverlap,
        List.map_append, List.flatten_append, List.map_cons, List.flatten_cons,
        List.map_nil, List.flatten_nil, List.append_assoc, List.append_nil]
      rw [hB]
      rw [List.drop_append_of_le_length (by omega : O ≤ (cur.drop (cur.length - O)).length)]
      rw [show (cur.drop (cur.length - O)).drop O = [] from
        List.drop_eq_nil_of_le (by rw [hdlen])]
      simp

/-- C1 (amended): for every input text containing no newline and no
space characters (hence no occurrence of any of the non-empty
separators) and 0 < overlap < chunk_size, concatenating the chunks
produced by the generic recursive splitter, dropping the first O
characters (the known overlap region) of every chunk after the first,
reproduces the input exactly.  For texts containing separators the
claim as stated fails: the packing loop drops separator characters and
empty split parts at chunk boundaries (see the counterexample). -/
theorem c1_roundtrip_separator_free (T : List Char) (S O : Nat)
    (hO : 0 < O) (hOS : O < S)
    (hn : ('\n' : Char) ∉ T) (hsp : (' ' : Char) ∉ T) :
    reconOverlap O (recursive_chunk T S O) = T := by
  rcases T with _ | ⟨c0, rT⟩
  · simp [recursive_chunk_nil, reconOverlap]
  · have hs1 : split_with_separator (c0 :: rT) ['\n', '\n'] = [c0 :: rT] := by
      simp only [split_with_separator]
      rw [splitAux_no_occur '\n' ['\n'] '\n' (by simp) _ _ [] hn]
      rfl
    have hs2 : split_with_separator (c0 :: rT) ['\n'] = [c0 :: rT] := by
      simp only [split_with_separator]
      rw [splitAux_no_occur '\n' [] '\n' (by simp) _ _ [] hn]
      rfl
    have hs3 : split_with_separator (c0 :: rT) ['.', ' '] = [c0 :: rT] := by
      simp only [split_with_separator]
      rw [splitAux_no_occur '.' [' '] ' ' (by simp) _ _ [] hsp]
      rfl
    have hs4 : split_with_separator (c0 :: rT) [' '] = [c0 :: rT] := by
      simp only [split_with_separator]
      rw [splitAux_no_occur ' ' [] ' ' (by simp) _ _ [] hsp]
      rfl
    by_cases hfit : (c0 :: rT).length ≤ S
    · have hfit2 : rT.length + 1 ≤ S := by simpa using hfit
      have hp1 : tryPass ['\n', '\n'] S O (c0 :: rT) = [c0 :: rT] := by
        simp [tryPass, hs1, packLoop, hfit2]
      have hts : trySeps S O (c0 :: rT) separators = [c0 :: rT] := by
        simp only [separators, trySeps, hp1]
        rw [if_pos ⟨by simp, by
          intro c hc
          simp at hc
          rw [hc]
          exact hfit⟩]
      simp [recursive_chunk, hts, reconOverlap]
    · have hfit2 : ¬ rT.length + 1 ≤ S := by simpa using hfit
      have hp1 : tryPass ['\n', '\n'] S O (c0 :: rT) = [] := by
        simp [tryPass, hs1, packLoop, hfit2]
      have hp2 : tryPass ['\n'] S O (c0 :: rT) = [] := by
        simp [tryPass, hs2, packLoop, hfit2]
      have hp3 : tryPass ['.', ' '] S O (c0 :: rT) = [] := by
        simp [tryPass, hs3, packLoop, hfit2]
      have hp4 : tryPass [' '] S O (c0 :: rT) = [] := by
        simp [tryPass, hs4, packLoop, hfit2]
      have hstep : packLoop [] S O ((c0 :: rT).map (fun c => [c])) [] []
          = packLoop [] S O (rT.map (fun c => [c])) [c0] [] := by
        simp [packLoop, show (1 : Nat) ≤ S by omega]
      obtain ⟨hsize1, hsize2, hne⟩ :=
        packNil_size S O hO hOS rT [c0] (by simp) (by simp; omega)
      have hfc : tryPass [] S O (c0 :: rT)
          = (packLoop [] S O (rT.map (fun c => [c])) [c0] []).1
            ++ [(packLoop [] S O (rT.map (fun c => [c])) [c0] []).2] := by
        simp only [tryPass, split_with_separator, hstep]
        rw [if_neg (fun h => hne (List.isEmpty_iff.mp h))]
      have hall : ∀ c ∈ (packLoop [] S O (rT.map (fun c => [c])) [c0] []).1
          ++ [(packLoop [] S O (rT.map (fun c => [c])) [c0] []).2],
          c.length ≤ S := by
        intro x hx
        rcases List.mem_append.mp hx with hx | hx
        · exact hsize1 x hx
        · rw [List.mem_singleton.mp hx]
          exact hsize2
      have hts : trySeps S O (c0 :: rT) separators
          = (packLoop [] S O (rT.map (fun c => [c])) [c0] []).1
            ++ [(packLoop [] S O (rT.map (fun c => [c])) [c0] []).2] := by
        simp only [separators, trySeps, hp1, hp2, hp3, hp4, hfc]
        rw [if_neg (by simp), if_neg (by simp), if_neg (by simp),
          if_neg (by simp), if_pos ⟨by simp, hall⟩]
      have hrc : recursive_chunk (c0 :: rT) S O
          = (packLoop [] S O (rT.map (fun c => [c])) [c0] []).1
            ++ [(packLoop [] S O (rT.map (fun c => [c])) [c0] []).2] := by
        simp [recursive_chunk, hts]
      rw [hrc]
      exact packNil_recon S O hO hOS rT [c0] (by simp) (by simp; omega)

/-- C1 witness: the separator-free text abcde chunked with size 2 and
overlap 1 round-trips. -/
theorem c1_roundtrip_separator_free_witness :
    ((0 : Nat) < 1 ∧ 1 < 2
      ∧ ('\n' : Char) ∉ "abcde".toList ∧ (' ' : Char) ∉ "abcde".toList)
    ∧ reconOverlap 1 (recursive_chunk ("abcde".toList) 2 1) = "abcde".toList :=
  ⟨⟨by decide, by decide, by decide, by decide⟩,
   c1_roundtrip_separator_free ("abcde".toList) 2 1
     (by decide) (by decide) (by decide) (by decide)⟩

end Friday
